import Mathlib

/-!
Work pool and CSV converter

A shallow embedding of `goroutines_pool/pkg/workpool/workpool.go` and of the
two CSV-to-JSON programs from `reader.ReadAll()` to the records encoded, with
the properties of the specification stated over it.

* The doubly linked list of `container/list` is a Lean list; an element
  pointer is a `Cursor` (the elements in front of it and the elements from it
  on), the nil pointer being a cursor with nothing left.
* The methods that hold `wp.mu` are atomic functions on the pool.
* `RunAndWait` and the goroutines it launches are a small-step machine: one
  `Action` is one atomic statement of the dispatch loop, of a worker goroutine,
  or a queue call of some other goroutine; a schedule is a list of actions.
  The body of a task is the list of queue calls it makes.
* A CSV file is the list of its records as `encoding/csv` splits them; the
  field-count check of `ReadAll` is part of the model.
* A Go `int` is an `Int`: the loops compare and count upwards to an argument,
  so no statement modelled here can overflow.
-/

namespace Workpool

/-! ## Data model -/

/-- A task is an opaque `func()`; the pool never looks inside, so a task is
named by a number. -/
abbrev Task := Nat

/-- The pool: `tasks` is the content of the linked list front to back,
`maxWorkers` the limit given to `New`, `wg` the counter of the wait group. -/
structure WorkPool where
  tasks : List Task
  maxWorkers : Int
  wg : Nat
  deriving DecidableEq, Repr

/-- An element pointer of `container/list`: `before` holds the elements in
front of the pointed element, `rest` the pointed element and its successors.
The nil pointer has `rest = []`. -/
structure Cursor where
  before : List Task
  rest : List Task
  deriving DecidableEq, Repr

/-- The test `current != nil`. -/
def Cursor.notNil (c : Cursor) : Bool := !c.rest.isEmpty

/-- The list after `l.InsertBefore(v, mark)`. -/
def Cursor.insertBefore (t : Task) (c : Cursor) : List Task :=
  c.before ++ t :: c.rest

/-- The list after `l.Remove(e)` for a non-nil `e`. -/
def Cursor.remove (c : Cursor) : List Task :=
  c.before ++ c.rest.tail

/-- The loop `for i := 0; i < position && current != nil; i++ { current =
current.Next() }`, entered with counter `i` and `current` pointing at the head
of the third argument. -/
def seek (position : Int) : Int → List Task → List Task → Cursor
  | _, before, [] => ⟨before, []⟩
  | i, before, x :: rest =>
    if i < position then seek position (i + 1) (before ++ [x]) rest
    else ⟨before, x :: rest⟩

/-- The constructor `New(maxWorkers)`. -/
def New (maxWorkers : Int) : WorkPool := ⟨[], maxWorkers, 0⟩

/-- Method `Insert`: `wp.tasks.PushBack(task)`. -/
def WorkPool.Insert (wp : WorkPool) (task : Task) : WorkPool :=
  { wp with tasks := wp.tasks ++ [task] }

/-- Method `InsertPosition`. -/
def WorkPool.InsertPosition (wp : WorkPool) (task : Task) (position : Int) : WorkPool :=
  if position < 0 then
    { wp with tasks := task :: wp.tasks }
  else
    let current := seek position 0 [] wp.tasks
    if current.notNil then
      { wp with tasks := current.insertBefore task }
    else
      { wp with tasks := wp.tasks ++ [task] }

/-- Method `List`: a fresh slice with the queue front to back. -/
def WorkPool.List (wp : WorkPool) : List Task :=
  wp.tasks.foldl (fun tasks e => tasks ++ [e]) []

/-- Method `Remove`: the returned flag and the pool afterwards. -/
def WorkPool.Remove (wp : WorkPool) (index : Int) : Bool × WorkPool :=
  if index < 0 then
    (false, wp)
  else
    let current := seek index 0 [] wp.tasks
    if current.notNil then
      (true, { wp with tasks := current.remove })
    else
      (false, wp)

/-- A call of one of the two inserting methods. -/
inductive Call where
  | insert (t : Task)
  | insertPosition (t : Task) (p : Int)
  deriving DecidableEq, Repr

/-- The pool after a call. -/
def Call.apply (wp : WorkPool) : Call → WorkPool
  | .insert t => wp.Insert t
  | .insertPosition t p => wp.InsertPosition t p

/-- The position rule as the specification words it: negative goes to the
front, at or past the length goes to the back, otherwise right before the
element at that index. -/
def positionRule (q : List Task) : Call → List Task
  | .insert t => q ++ [t]
  | .insertPosition t p =>
    if p < 0 then t :: q
    else if (q.length : Int) ≤ p then q ++ [t]
    else q.take p.toNat ++ [t] ++ q.drop p.toNat

/-! ## RunAndWait as a machine -/

/-- A queue call made by a task body or by some other goroutine. -/
inductive Op where
  | insert (t : Task)
  | insertPosition (t : Task) (p : Int)
  | remove (i : Int)
  deriving DecidableEq, Repr

/-- The pool after a queue call (each call holds `wp.mu` from start to end). -/
def Op.apply (wp : WorkPool) : Op → WorkPool
  | .insert t => wp.Insert t
  | .insertPosition t p => wp.InsertPosition t p
  | .remove i => (wp.Remove i).2

/-- The run-time panics the modelled statements can raise. -/
inductive Fault where
  /-- Nil pointer dereference in `wp.tasks.Remove(nil)`. -/
  | nilElement
  /-- Size out of range in `make(chan struct{}, n)` with `n < 0`. -/
  | chanSize
  /-- Negative counter: `wg.Done()` on a zero counter. -/
  | negativeCounter
  deriving DecidableEq, Repr

/-- Where the goroutine that called `RunAndWait` stands. -/
inductive PC where
  /-- Before `wp.mu.Lock(); taskCount := wp.tasks.Len(); wp.mu.Unlock()`. -/
  | start
  /-- Before `if taskCount == 0 { return }`. -/
  | counted (taskCount : Nat)
  /-- Before `sem := make(chan struct{}, wp.maxWorkers)`. -/
  | makeSem
  /-- Before the loop condition `wp.tasks.Len() > 0`. -/
  | loopCheck
  /-- Before the locked block `Front`, `Remove`, `Value`. -/
  | dequeue
  /-- Before `wp.wg.Add(1)`, holding the dequeued task. -/
  | wgAdd (task : Task)
  /-- Before `sem <- struct{}{}`. -/
  | semSend (task : Task)
  /-- Before the `go` statement. -/
  | spawn (task : Task)
  /-- Before `wp.wg.Wait()`. -/
  | wgWait
  /-- After the return of `RunAndWait`. -/
  | returned
  /-- The process has panicked. -/
  | crashed (f : Fault)
  deriving DecidableEq, Repr

/-- Where a launched goroutine stands: inside `t()` with the queue calls it
still makes, before the deferred `<-sem`, before the deferred `wp.wg.Done()`,
or finished. -/
inductive Phase where
  | body (ops : List Op)
  | release
  | done
  | exited
  deriving DecidableEq, Repr

/-- A goroutine launched by the dispatch loop. -/
structure Worker where
  task : Task
  phase : Phase
  deriving DecidableEq, Repr

/-- The state of one `RunAndWait` invocation: the pool, the semaphore channel
(`none` before `make`, otherwise the number of buffered items), the program
point of the caller, the goroutines launched so far in launch order, and the
tasks launched so far in launch order. -/
structure State where
  wp : WorkPool
  sem : Option Nat
  pc : PC
  workers : List Worker
  admitted : List Task
  deriving DecidableEq, Repr

/-- One atomic statement of the dispatch loop, of the `i`-th launched
goroutine, or a queue call of some other goroutine. -/
inductive Action where
  | dispatch
  | worker (i : Nat)
  | caller (op : Op)
  deriving DecidableEq, Repr

/-- The state in which `RunAndWait` is called on `wp`. -/
def init (wp : WorkPool) : State := ⟨wp, none, .start, [], []⟩

/-- The next statement of `RunAndWait`; `none` when it is blocked or has
returned. `prog t` is the list of queue calls the body of task `t` makes. -/
def dispatch (prog : Task → List Op) (s : State) : Option State :=
  match s.pc with
  | .start => some { s with pc := .counted s.wp.tasks.length }
  | .counted taskCount =>
    if taskCount = 0 then some { s with pc := .returned }
    else some { s with pc := .makeSem }
  | .makeSem =>
    if s.wp.maxWorkers < 0 then some { s with pc := .crashed .chanSize }
    else some { s with sem := some 0, pc := .loopCheck }
  | .loopCheck =>
    if s.wp.tasks.length > 0 then some { s with pc := .dequeue }
    else some { s with pc := .wgWait }
  | .dequeue =>
    let taskElement : Cursor := ⟨[], s.wp.tasks⟩
    match taskElement.rest with
    | [] => some { s with pc := .crashed .nilElement }
    | task :: _ =>
      some { s with wp := { s.wp with tasks := taskElement.remove }, pc := .wgAdd task }
  | .wgAdd task =>
    some { s with wp := { s.wp with wg := s.wp.wg + 1 }, pc := .semSend task }
  | .semSend task =>
    match s.sem with
    | some k =>
      if (k : Int) < s.wp.maxWorkers then some { s with sem := some (k + 1), pc := .spawn task }
      else none
    | none => none
  | .spawn task =>
    some { s with
      workers := s.workers ++ [⟨task, .body (prog task)⟩]
      admitted := s.admitted ++ [task]
      pc := .loopCheck }
  | .wgWait => if s.wp.wg = 0 then some { s with pc := .returned } else none
  | .returned => none
  | .crashed _ => none

/-- The next statement of the `i`-th launched goroutine
`defer wp.wg.Done(); defer func() { <-sem }(); t()`. -/
def workerStep (i : Nat) (s : State) : Option State :=
  match s.workers[i]? with
  | none => none
  | some w =>
    match w.phase with
    | .body (op :: ops) =>
      some { s with wp := op.apply s.wp, workers := s.workers.set i ⟨w.task, .body ops⟩ }
    | .body [] => some { s with workers := s.workers.set i ⟨w.task, .release⟩ }
    | .release =>
      match s.sem with
      | some (k + 1) => some { s with sem := some k, workers := s.workers.set i ⟨w.task, .done⟩ }
      | _ => none
    | .done =>
      if s.wp.wg = 0 then some { s with pc := .crashed .negativeCounter }
      else some { s with
        wp := { s.wp with wg := s.wp.wg - 1 }
        workers := s.workers.set i ⟨w.task, .exited⟩ }
    | .exited => none

/-- One action; nothing runs once the process has panicked. -/
def step (prog : Task → List Op) (a : Action) (s : State) : Option State :=
  match s.pc with
  | .crashed _ => none
  | _ =>
    match a with
    | .dispatch => dispatch prog s
    | .worker i => workerStep i s
    | .caller op => some { s with wp := op.apply s.wp }

/-- A schedule, run from a state; `none` when one of its actions is not
enabled. -/
def run (prog : Task → List Op) : List Action → State → Option State
  | [], s => some s
  | a :: sched, s => (step prog a s).bind (run prog sched)

/-- No action of the schedule is a queue call of another goroutine. -/
def Action.internal : Action → Bool
  | .caller _ => false
  | _ => true

/-- The goroutine holds a slot of `sem`: it is inside `t()` or has not yet
run the deferred `<-sem`. -/
def Phase.holdsSlot : Phase → Bool
  | .body _ => true
  | .release => true
  | _ => false

/-- Number of launched tasks that have not yet given their slot back. -/
def State.holders (s : State) : Nat := s.workers.countP (fun w => w.phase.holdsSlot)

/-- Number of launched goroutines that have not yet called `wg.Done()`. -/
def State.pending (s : State) : Nat := s.workers.countP (fun w => w.phase ≠ .exited)

/-- Number of launched goroutines that have run to their end. -/
def State.completions (s : State) : Nat := s.workers.countP (fun w => w.phase = .exited)

/-- The task the dispatch loop holds between dequeue and launch. -/
def PC.held : PC → List Task
  | .wgAdd t => [t]
  | .semSend t => [t]
  | .spawn t => [t]
  | _ => []

/-- Steps the dispatch loop still takes from a program point, the queue left
aside. -/
def PC.rank : PC → Nat
  | .start => 5
  | .counted _ => 4
  | .makeSem => 3
  | .loopCheck => 2
  | .dequeue => 1
  | .wgAdd _ => 8
  | .semSend _ => 7
  | .spawn _ => 6
  | .wgWait => 1
  | .returned => 0
  | .crashed _ => 0

/-- Steps a goroutine with an empty body still takes. -/
def Phase.rank : Phase → Nat
  | .body _ => 3
  | .release => 2
  | .done => 1
  | .exited => 0

/-- Bound on the number of steps left when no task touches the pool. -/
def State.measure (s : State) : Nat :=
  8 * s.wp.tasks.length + s.pc.rank + (s.workers.map (fun w => w.phase.rank)).sum

/-- One when the dispatch loop has sent on `sem` for a task it has not yet
launched. -/
def PC.slotTaken : PC → Nat
  | .spawn _ => 1
  | _ => 0

/-- Before `make`: the channel does not exist yet. -/
def PC.beforeMake : PC → Bool
  | .start => true
  | .counted _ => true
  | .makeSem => true
  | _ => false

/-- Number of items buffered in `sem`. -/
def State.semCount (s : State) : Nat := s.sem.getD 0

/-- The slot invariant: every holder of a slot is accounted for by an item in
the channel, and the channel never holds more than `n` items. -/
def SlotInv (n : Int) (s : State) : Prop :=
  s.wp.maxWorkers = n
    ∧ s.holders + s.pc.slotTaken ≤ s.semCount
    ∧ (s.semCount : Int) ≤ n
    ∧ (s.pc.beforeMake = true → s.sem = none)

/-- One when the dispatch loop has added to the wait group for a task it has
not yet launched. -/
def PC.wgTaken : PC → Nat
  | .semSend _ => 1
  | .spawn _ => 1
  | _ => 0

/-- What the program point of the dispatch loop says about the queue. -/
def State.pcAgrees (s : State) : Prop :=
  match s.pc with
  | .counted taskCount => taskCount = s.wp.tasks.length
  | .dequeue => s.wp.tasks ≠ []
  | .wgWait => s.wp.tasks = []
  | .returned => s.wp.tasks = [] ∧ s.pending = 0
  | .crashed _ => False
  | _ => True

/-- The invariant of a drain of the queue `q` under limit `n` when no task
body and no other goroutine touches the pool. -/
structure DrainInv (n : Int) (q : List Task) (s : State) : Prop where
  limit : s.wp.maxWorkers = n
  order : s.admitted ++ s.pc.held ++ s.wp.tasks = q
  launched : s.workers.map Worker.task = s.admitted
  idle : ∀ w ∈ s.workers, w.phase.rank = 3 → w.phase = .body []
  joined : s.wp.wg = s.pending + s.pc.wgTaken
  slots : s.semCount = s.holders + s.pc.slotTaken
  bound : (s.semCount : Int) ≤ n
  unmade : s.pc.beforeMake = true → s.sem = none ∧ s.workers = []
  made : s.sem = none → s.pc.beforeMake = true ∨ s.pc = .returned
  agrees : s.pcAgrees

/-- A complete schedule for five tasks under limit two: the loop launches two
tasks, then has to wait for a slot before each of the next three launches. -/
def drainSchedule : List Action :=
  List.replicate 16 .dispatch
    ++ List.replicate 3 (.worker 0) ++ List.replicate 5 .dispatch
    ++ List.replicate 3 (.worker 1) ++ List.replicate 5 .dispatch
    ++ List.replicate 3 (.worker 2) ++ List.replicate 3 .dispatch
    ++ List.replicate 3 (.worker 3) ++ List.replicate 3 (.worker 4) ++ [.dispatch]

/-- The task bodies of the re-entrant example: task `0` inserts task `1`;
no other task touches the pool. -/
def reentrantProg : Task → List Op
  | 0 => [.insert 1]
  | _ => []

/-- The states of the re-entrant example (limit one, task `0` queued) in
breadth-first order from the initial state. -/
def reentrantStates : List State :=
  [
    ⟨⟨[0], 1, 0⟩, none, .start, [], []⟩,
    ⟨⟨[0], 1, 0⟩, none, .counted 1, [], []⟩,
    ⟨⟨[0], 1, 0⟩, none, .makeSem, [], []⟩,
    ⟨⟨[0], 1, 0⟩, some 0, .loopCheck, [], []⟩,
    ⟨⟨[0], 1, 0⟩, some 0, .dequeue, [], []⟩,
    ⟨⟨[], 1, 0⟩, some 0, .wgAdd 0, [], []⟩,
    ⟨⟨[], 1, 1⟩, some 0, .semSend 0, [], []⟩,
    ⟨⟨[], 1, 1⟩, some 1, .spawn 0, [], []⟩,
    ⟨⟨[], 1, 1⟩, some 1, .loopCheck, [⟨0, .body [.insert 1]⟩], [0]⟩,
    ⟨⟨[], 1, 1⟩, some 1, .wgWait, [⟨0, .body [.insert 1]⟩], [0]⟩,
    ⟨⟨[1], 1, 1⟩, some 1, .loopCheck, [⟨0, .body []⟩], [0]⟩,
    ⟨⟨[1], 1, 1⟩, some 1, .wgWait, [⟨0, .body []⟩], [0]⟩,
    ⟨⟨[1], 1, 1⟩, some 1, .dequeue, [⟨0, .body []⟩], [0]⟩,
    ⟨⟨[1], 1, 1⟩, some 1, .loopCheck, [⟨0, .release⟩], [0]⟩,
    ⟨⟨[1], 1, 1⟩, some 1, .wgWait, [⟨0, .release⟩], [0]⟩,
    ⟨⟨[], 1, 1⟩, some 1, .wgAdd 1, [⟨0, .body []⟩], [0]⟩,
    ⟨⟨[1], 1, 1⟩, some 1, .dequeue, [⟨0, .release⟩], [0]⟩,
    ⟨⟨[1], 1, 1⟩, some 0, .loopCheck, [⟨0, .done⟩], [0]⟩,
    ⟨⟨[1], 1, 1⟩, some 0, .wgWait, [⟨0, .done⟩], [0]⟩,
    ⟨⟨[], 1, 2⟩, some 1, .semSend 1, [⟨0, .body []⟩], [0]⟩,
    ⟨⟨[], 1, 1⟩, some 1, .wgAdd 1, [⟨0, .release⟩], [0]⟩,
    ⟨⟨[1], 1, 1⟩, some 0, .dequeue, [⟨0, .done⟩], [0]⟩,
    ⟨⟨[1], 1, 0⟩, some 0, .loopCheck, [⟨0, .exited⟩], [0]⟩,
    ⟨⟨[1], 1, 0⟩, some 0, .wgWait, [⟨0, .exited⟩], [0]⟩,
    ⟨⟨[], 1, 2⟩, some 1, .semSend 1, [⟨0, .release⟩], [0]⟩,
    ⟨⟨[], 1, 1⟩, some 0, .wgAdd 1, [⟨0, .done⟩], [0]⟩,
    ⟨⟨[1], 1, 0⟩, some 0, .dequeue, [⟨0, .exited⟩], [0]⟩,
    ⟨⟨[1], 1, 0⟩, some 0, .returned, [⟨0, .exited⟩], [0]⟩,
    ⟨⟨[], 1, 2⟩, some 0, .semSend 1, [⟨0, .done⟩], [0]⟩,
    ⟨⟨[], 1, 0⟩, some 0, .wgAdd 1, [⟨0, .exited⟩], [0]⟩,
    ⟨⟨[], 1, 2⟩, some 1, .spawn 1, [⟨0, .done⟩], [0]⟩,
    ⟨⟨[], 1, 1⟩, some 0, .semSend 1, [⟨0, .exited⟩], [0]⟩,
    ⟨⟨[], 1, 2⟩, some 1, .loopCheck, [⟨0, .done⟩, ⟨1, .body []⟩], [0, 1]⟩,
    ⟨⟨[], 1, 1⟩, some 1, .spawn 1, [⟨0, .exited⟩], [0]⟩,
    ⟨⟨[], 1, 2⟩, some 1, .wgWait, [⟨0, .done⟩, ⟨1, .body []⟩], [0, 1]⟩,
    ⟨⟨[], 1, 1⟩, some 1, .loopCheck, [⟨0, .exited⟩, ⟨1, .body []⟩], [0, 1]⟩,
    ⟨⟨[], 1, 2⟩, some 1, .loopCheck, [⟨0, .done⟩, ⟨1, .release⟩], [0, 1]⟩,
    ⟨⟨[], 1, 1⟩, some 1, .wgWait, [⟨0, .exited⟩, ⟨1, .body []⟩], [0, 1]⟩,
    ⟨⟨[], 1, 2⟩, some 1, .wgWait, [⟨0, .done⟩, ⟨1, .release⟩], [0, 1]⟩,
    ⟨⟨[], 1, 1⟩, some 1, .loopCheck, [⟨0, .exited⟩, ⟨1, .release⟩], [0, 1]⟩,
    ⟨⟨[], 1, 2⟩, some 0, .loopCheck, [⟨0, .done⟩, ⟨1, .done⟩], [0, 1]⟩,
    ⟨⟨[], 1, 1⟩, some 1, .wgWait, [⟨0, .exited⟩, ⟨1, .release⟩], [0, 1]⟩,
    ⟨⟨[], 1, 2⟩, some 0, .wgWait, [⟨0, .done⟩, ⟨1, .done⟩], [0, 1]⟩,
    ⟨⟨[], 1, 1⟩, some 0, .loopCheck, [⟨0, .exited⟩, ⟨1, .done⟩], [0, 1]⟩,
    ⟨⟨[], 1, 1⟩, some 0, .loopCheck, [⟨0, .done⟩, ⟨1, .exited⟩], [0, 1]⟩,
    ⟨⟨[], 1, 1⟩, some 0, .wgWait, [⟨0, .exited⟩, ⟨1, .done⟩], [0, 1]⟩,
    ⟨⟨[], 1, 1⟩, some 0, .wgWait, [⟨0, .done⟩, ⟨1, .exited⟩], [0, 1]⟩,
    ⟨⟨[], 1, 0⟩, some 0, .loopCheck, [⟨0, .exited⟩, ⟨1, .exited⟩], [0, 1]⟩,
    ⟨⟨[], 1, 0⟩, some 0, .wgWait, [⟨0, .exited⟩, ⟨1, .exited⟩], [0, 1]⟩,
    ⟨⟨[], 1, 0⟩, some 0, .returned, [⟨0, .exited⟩, ⟨1, .exited⟩], [0, 1]⟩
  ]

/-- Every enabled step of the dispatch loop or of a launched goroutine leads
from a listed state to a listed state. -/
def reentrantClosed : Bool :=
  reentrantStates.all fun s =>
    [Action.dispatch, Action.worker 0, Action.worker 1].all fun a =>
      match step reentrantProg a s with
      | none => true
      | some s' => reentrantStates.contains s'

/-- What holds of a state of the re-entrant example in which `RunAndWait` has
returned: every launched goroutine has finished, and either both tasks ran
and the queue is empty, or only task `0` ran and task `1` is still queued. -/
def reentrantOutcome (s : State) : Bool :=
  s.pc != .returned ||
    (s.pending == 0 && s.wp.wg == 0 &&
      ((s.completions == 2 && s.wp.tasks == [] && s.admitted == [0, 1])
        || (s.completions == 1 && s.wp.tasks == [1] && s.admitted == [0])))

/-- The schedule of the re-entrant example in which the loop sees the empty
queue before task `0` has inserted task `1`. -/
def earlyExitSchedule : List Action :=
  List.replicate 9 .dispatch ++ List.replicate 4 (.worker 0) ++ [.dispatch]

/-- The schedule of the re-entrant example in which task `0` inserts task `1`
before the loop looks at the queue again. -/
def pickUpSchedule : List Action :=
  List.replicate 8 .dispatch ++ List.replicate 4 (.worker 0) ++ List.replicate 6 .dispatch
    ++ List.replicate 3 (.worker 1) ++ [.dispatch]

/-- In every listed state in which `RunAndWait` has not returned, the dispatch
loop or a launched goroutine has an enabled step. -/
def reentrantLive : Bool :=
  reentrantStates.all fun s =>
    s.pc == .returned ||
      [Action.dispatch, Action.worker 0, Action.worker 1].any fun a =>
        (step reentrantProg a s).isSome

end Workpool

/-! ## The CSV row conversion -/

namespace Csv

/-- A `map[string]string`. -/
abbrev Record := String → Option String

/-- The empty map `make(map[string]string)`. -/
def Record.empty : Record := fun _ => none

/-- The assignment `m[k] = v`. -/
def Record.set (m : Record) (k v : String) : Record :=
  fun x => if x = k then some v else m x

/-- What a conversion yields: the error returned when `reader.ReadAll()`
fails, the error for no rows at all, an index out of range panic, or the
record slice `jsonData`. -/
inductive Outcome where
  | readError
  | noData
  | indexOutOfRange
  | ok (jsonData : List Record)

/-- The call `reader.ReadAll()` of `encoding/csv` on the records of the file,
`fieldsPerRecord` being the reader's `FieldsPerRecord` (zero in the reader
that `csv.NewReader` returns, which neither program changes): at zero the
first record sets it to its field count, and once it is positive a record
with another field count gives `ErrFieldCount`, on which `ReadAll` returns no
records and the error (`none`). -/
def readAll (fieldsPerRecord : Nat) :
    List (List String) → List (List String) → Option (List (List String))
  | [], records => some records
  | record :: file, records =>
    if fieldsPerRecord > 0 then
      if record.length ≠ fieldsPerRecord then none
      else readAll fieldsPerRecord file (records ++ [record])
    else readAll record.length file (records ++ [record])

/-- The loop `for i, value := range row { recordMap[headers[i]] = value }`, from
index `i` on; `none` is the panic of `headers[i]` out of range. -/
def fillRecord (headers : List String) : Nat → List String → Record → Option Record
  | _, [], recordMap => some recordMap
  | i, value :: row, recordMap =>
    match headers[i]? with
    | none => none
    | some h => fillRecord headers (i + 1) row (recordMap.set h value)

/-- The loop `for _, row := range records[1:]`. -/
def convertRows (headers : List String) :
    List (List String) → List Record → Option (List Record)
  | [], jsonData => some jsonData
  | row :: rows, jsonData =>
    if row.length ≠ headers.length then convertRows headers rows jsonData
    else
      match fillRecord headers 0 row Record.empty with
      | none => none
      | some recordMap => convertRows headers rows (jsonData ++ [recordMap])

/-- The function `processCSVFile` of `main.go` on the records of the file,
from `reader.ReadAll()` to the data encoded. -/
def processCSVFile (file : List (List String)) : Outcome :=
  match readAll 0 file [] with
  | none => .readError
  | some records =>
    match records with
    | [] => .noData
    | headers :: rows =>
      match convertRows headers rows [] with
      | none => .indexOutOfRange
      | some jsonData => .ok jsonData

/-- The function `processCSVFileConcurrently` of
`csv_to_json_converter/main.go` on the records of the file. -/
def processCSVFileConcurrently (file : List (List String)) : Outcome :=
  match readAll 0 file [] with
  | none => .readError
  | some records =>
    match records with
    | [] => .noData
    | headers :: rows =>
      match convertRows headers rows [] with
      | none => .indexOutOfRange
      | some jsonData => .ok jsonData

/-- The record of a row as the specification words it: `h[i] -> row[i]` for
`i = 0 .. length(h)-1` in column order. -/
def specRecord (h row : List String) : Record :=
  (List.range h.length).foldl (fun m i => m.set (h.getD i "") (row.getD i "")) Record.empty

/-- The records the specification asks for: in row order, the record of each
data row with as many fields as the header, and none for the other rows. -/
def specRecords (h : List String) (rs : List (List String)) : List Record :=
  (rs.filter (fun r => decide (r.length = h.length))).map (specRecord h)

end Csv

namespace Workpool

/-! ## Lemmas on the queue -/

theorem seek_eq (position : Int) (rest : List Task) :
    ∀ (i : Int) (before : List Task), i ≤ position →
      seek position i before rest
        = ⟨before ++ rest.take (position - i).toNat, rest.drop (position - i).toNat⟩ := by
  induction rest with
  | nil => intro i before _; simp [seek]
  | cons x rest ih =>
    intro i before hi
    unfold seek
    by_cases h : i < position
    · rw [if_pos h, ih (i + 1) (before ++ [x]) (by omega)]
      have e : (position - i).toNat = (position - (i + 1)).toNat + 1 := by omega
      rw [e]
      simp
    · rw [if_neg h]
      have e : (position - i).toNat = 0 := by omega
      rw [e]
      simp

theorem seek_zero (position : Int) (h : 0 ≤ position) (q : List Task) :
    seek position 0 [] q = ⟨q.take position.toNat, q.drop position.toNat⟩ := by
  rw [seek_eq position q 0 [] h]
  simp

theorem list_eq (wp : WorkPool) : wp.List = wp.tasks := by
  unfold WorkPool.List
  have h : ∀ (l acc : List Task), l.foldl (fun tasks e => tasks ++ [e]) acc = acc ++ l := by
    intro l
    induction l with
    | nil => intro acc; simp
    | cons x l ih => intro acc; simp [ih]
  simpa using h wp.tasks []

theorem insertPosition_tasks (wp : WorkPool) (t : Task) (p : Int) :
    (wp.InsertPosition t p).tasks =
      if p < 0 then t :: wp.tasks
      else wp.tasks.take p.toNat ++ t :: wp.tasks.drop p.toNat := by
  unfold WorkPool.InsertPosition
  by_cases hp : p < 0
  · simp [hp]
  · simp only [hp, if_false]
    rw [seek_zero p (by omega)]
    by_cases hl : p.toNat < wp.tasks.length
    · have : wp.tasks.drop p.toNat ≠ [] := by simp; omega
      simp [Cursor.notNil, Cursor.insertBefore, this]
    · have hd : wp.tasks.drop p.toNat = [] := by simp; omega
      have ht : wp.tasks.take p.toNat = wp.tasks := by simp; omega
      simp [Cursor.notNil, hd, ht]

theorem remove_eq (wp : WorkPool) (i : Int) :
    wp.Remove i =
      if 0 ≤ i ∧ i < wp.tasks.length then
        (true, { wp with tasks := wp.tasks.eraseIdx i.toNat })
      else (false, wp) := by
  unfold WorkPool.Remove
  by_cases hp : i < 0
  · have : ¬ (0 ≤ i ∧ i < wp.tasks.length) := by omega
    simp [hp, this]
  · simp only [hp, if_false]
    rw [seek_zero i (by omega)]
    by_cases hl : i.toNat < wp.tasks.length
    · have h1 : 0 ≤ i ∧ i < wp.tasks.length := by omega
      have : wp.tasks.drop i.toNat ≠ [] := by simp; omega
      simp [Cursor.notNil, Cursor.remove, this, h1, List.eraseIdx_eq_take_drop_succ]
    · have h1 : ¬ (0 ≤ i ∧ i < wp.tasks.length) := by omega
      have hd : wp.tasks.drop i.toNat = [] := by simp; omega
      simp [Cursor.notNil, hd, h1]

theorem apply_tasks (wp : WorkPool) (c : Call) :
    (c.apply wp).tasks = positionRule wp.tasks c := by
  cases c with
  | insert t => rfl
  | insertPosition t p =>
    simp only [Call.apply, positionRule, insertPosition_tasks]
    by_cases hp : p < 0
    · simp [hp]
    · simp only [hp, if_false]
      by_cases hl : (wp.tasks.length : Int) ≤ p
      · have hd : wp.tasks.drop p.toNat = [] := by simp; omega
        have ht : wp.tasks.take p.toNat = wp.tasks := by simp; omega
        simp [hl, hd, ht]
      · simp [hl]

theorem foldl_apply_tasks (calls : List Call) :
    ∀ wp : WorkPool, (calls.foldl Call.apply wp).tasks = calls.foldl positionRule wp.tasks := by
  induction calls with
  | nil => intro wp; rfl
  | cons c calls ih =>
    intro wp
    simp only [List.foldl_cons]
    rw [ih, apply_tasks]

/-! ## The queue claims -/

/-- C1: from an empty pool, after any sequence of `Insert` and
`InsertPosition` calls, `List()` is the fold of the position rule over the
calls (negative to the front, at or past the length to the back, otherwise
right before the element at that index). -/
theorem list_follows_position_rule (maxWorkers : Int) (calls : List Call) :
    (calls.foldl Call.apply (New maxWorkers)).List = calls.foldl positionRule [] := by
  rw [list_eq, foldl_apply_tasks]
  rfl

/-- C2: for `0 ≤ i < length`, `Remove(i)` returns true and leaves the queue
with exactly its `i`-th element deleted: the length drops by one, indices
below `i` keep their element and the element formerly at `j > i` is at
`j - 1`. -/
theorem remove_in_range (wp : WorkPool) (i : Int) (h0 : 0 ≤ i)
    (h1 : i < wp.tasks.length) :
    (wp.Remove i).1 = true
      ∧ (wp.Remove i).2 = { wp with tasks := wp.tasks.take i.toNat ++ wp.tasks.drop (i.toNat + 1) }
      ∧ (wp.Remove i).2.tasks.length + 1 = wp.tasks.length
      ∧ (∀ j : Nat, j < i.toNat → (wp.Remove i).2.tasks[j]? = wp.tasks[j]?)
      ∧ (∀ j : Nat, i.toNat < j → (wp.Remove i).2.tasks[j - 1]? = wp.tasks[j]?) := by
  have hi : i.toNat < wp.tasks.length := by omega
  rw [remove_eq, if_pos ⟨h0, h1⟩]
  refine ⟨rfl, ?_, ?_, ?_, ?_⟩
  · simp [List.eraseIdx_eq_take_drop_succ]
  · simp only [List.length_eraseIdx, hi, if_true]
    omega
  · intro j hj
    simp only [List.getElem?_eraseIdx, hj, if_true]
  · intro j hj
    have : ¬ (j - 1 < i.toNat) := by omega
    simp only [List.getElem?_eraseIdx, this, if_false]
    congr 1
    omega

theorem remove_in_range_witness :
    (0 : Int) ≤ 1 ∧ (1 : Int) < (WorkPool.mk [7, 8, 9] 2 0).tasks.length
      ∧ ((WorkPool.mk [7, 8, 9] 2 0).Remove 1).1 = true
      ∧ ((WorkPool.mk [7, 8, 9] 2 0).Remove 1).2 = WorkPool.mk [7, 9] 2 0 :=
  ⟨by decide, by decide,
    (remove_in_range (WorkPool.mk [7, 8, 9] 2 0) 1 (by decide) (by decide)).1,
    (remove_in_range (WorkPool.mk [7, 8, 9] 2 0) 1 (by decide) (by decide)).2.1⟩

/-- C3: for `i < 0` or `i ≥ length`, `Remove(i)` returns false and leaves the
pool as it was; and for every index, `Remove` returns true exactly when
`0 ≤ index < length`. -/
theorem remove_out_of_range (wp : WorkPool) (i : Int)
    (h : i < 0 ∨ (wp.tasks.length : Int) ≤ i) :
    wp.Remove i = (false, wp)
      ∧ ∀ j : Int, (wp.Remove j).1 = true ↔ (0 ≤ j ∧ j < wp.tasks.length) := by
  constructor
  · have : ¬ (0 ≤ i ∧ i < wp.tasks.length) := by omega
    rw [remove_eq, if_neg this]
  · intro j
    rw [remove_eq]
    by_cases hj : 0 ≤ j ∧ j < wp.tasks.length
    · simp [hj]
    · rw [if_neg hj]
      simp [hj]

theorem remove_out_of_range_witness :
    ((-1 : Int) < 0 ∨ ((WorkPool.mk [7, 8] 2 0).tasks.length : Int) ≤ -1)
      ∧ (WorkPool.mk [7, 8] 2 0).Remove (-1) = (false, WorkPool.mk [7, 8] 2 0)
      ∧ (New 3).Remove 0 = (false, New 3) :=
  ⟨by decide, (remove_out_of_range (WorkPool.mk [7, 8] 2 0) (-1) (by decide)).1,
    (remove_out_of_range (New 3) 0 (by decide)).1⟩

/-- C10: `InsertPosition(t, p)` followed by `Remove(k)`, with `k = 0` for
`p < 0` and `k = min(p, length)` otherwise, returns true and gives the pool
back; right after the insertion `List()` has `t` at index `k` and one element
more. -/
theorem insert_then_remove (wp : WorkPool) (t : Task) (p : Int) :
    (wp.InsertPosition t p).Remove (if p < 0 then 0 else min p wp.tasks.length) = (true, wp)
      ∧ (wp.InsertPosition t p).List[(if p < 0 then 0 else min p wp.tasks.length).toNat]? = some t
      ∧ (wp.InsertPosition t p).List.length = wp.tasks.length + 1 := by
  have hw : wp.InsertPosition t p = { wp with tasks := (wp.InsertPosition t p).tasks } := by
    unfold WorkPool.InsertPosition
    split
    · rfl
    · simp only []
      split <;> rfl
  rw [list_eq, remove_eq]
  rw [hw]
  simp only [insertPosition_tasks]
  by_cases hp : p < 0
  · simp [hp]
  · simp only [hp, if_false]
    by_cases hl : p ≤ wp.tasks.length
    · have hk : min p (wp.tasks.length : Int) = p := min_eq_left hl
      have hlen : (wp.tasks.take p.toNat).length = p.toNat := by simp; omega
      have hcond : 0 ≤ p ∧ p < ((wp.tasks.take p.toNat ++ t :: wp.tasks.drop p.toNat).length : Int) := by
        simp; omega
      rw [hk, if_pos hcond]
      refine ⟨?_, ?_, ?_⟩
      · have : (wp.tasks.take p.toNat ++ t :: wp.tasks.drop p.toNat).eraseIdx p.toNat
            = wp.tasks := by
          rw [List.eraseIdx_append_of_length_le (by omega)]
          simp [hlen]
        rw [this]
      · rw [List.getElem?_append_right (by omega)]
        simp [hlen]
      · simp; omega
    · have hk : min p (wp.tasks.length : Int) = wp.tasks.length := min_eq_right (by omega)
      have hd : wp.tasks.drop p.toNat = [] := by simp; omega
      have ht : wp.tasks.take p.toNat = wp.tasks := by simp; omega
      rw [hk, hd, ht]
      have hcond : (0 : Int) ≤ wp.tasks.length
          ∧ (wp.tasks.length : Int) < ((wp.tasks ++ [t]).length : Int) := by
        simp
      rw [if_pos hcond]
      refine ⟨?_, ?_, ?_⟩
      · have : (wp.tasks ++ [t]).eraseIdx (wp.tasks.length : Int).toNat = wp.tasks := by
          rw [List.eraseIdx_append_of_length_le (by simp)]
          simp
        rw [this]
      · simp
      · simp

/-! ## Lemmas on the machine -/

theorem op_apply_maxWorkers (op : Op) (wp : WorkPool) :
    (op.apply wp).maxWorkers = wp.maxWorkers := by
  cases op with
  | insert t => rfl
  | insertPosition t p =>
    simp only [Op.apply, WorkPool.InsertPosition]
    split
    · rfl
    · split <;> rfl
  | remove i =>
    simp only [Op.apply, WorkPool.Remove]
    split
    · rfl
    · split <;> rfl

theorem op_apply_wg (op : Op) (wp : WorkPool) : (op.apply wp).wg = wp.wg := by
  cases op with
  | insert t => rfl
  | insertPosition t p =>
    simp only [Op.apply, WorkPool.InsertPosition]
    split
    · rfl
    · split <;> rfl
  | remove i =>
    simp only [Op.apply, WorkPool.Remove]
    split
    · rfl
    · split <;> rfl

theorem countP_set_add (p : Worker → Bool) :
    ∀ (l : List Worker) (i : Nat) (w w' : Worker), l[i]? = some w →
      (l.set i w').countP p + (if p w then 1 else 0)
        = l.countP p + (if p w' then 1 else 0) := by
  intro l
  induction l with
  | nil => intro i w w' h; simp at h
  | cons x l ih =>
    intro i w w' h
    cases i with
    | zero =>
      simp only [List.getElem?_cons_zero, Option.some.injEq] at h
      subst h
      simp only [List.set_cons_zero, List.countP_cons]
      omega
    | succ i =>
      simp only [List.getElem?_cons_succ] at h
      have := ih i w w' h
      simp only [List.set_cons_succ, List.countP_cons]
      omega

theorem sum_set_add (f : Worker → Nat) :
    ∀ (l : List Worker) (i : Nat) (w w' : Worker), l[i]? = some w →
      ((l.set i w').map f).sum + f w = (l.map f).sum + f w' := by
  intro l
  induction l with
  | nil => intro i w w' h; simp at h
  | cons x l ih =>
    intro i w w' h
    cases i with
    | zero =>
      simp only [List.getElem?_cons_zero, Option.some.injEq] at h
      subst h
      simp only [List.set_cons_zero, List.map_cons, List.sum_cons]
      omega
    | succ i =>
      simp only [List.getElem?_cons_succ] at h
      have := ih i w w' h
      simp only [List.set_cons_succ, List.map_cons, List.sum_cons]
      omega

theorem run_invariant (prog : Task → List Op) (P : State → Prop)
    (hstep : ∀ a s s', P s → step prog a s = some s' → P s') :
    ∀ (sched : List Action) (s s' : State), P s → run prog sched s = some s' → P s' := by
  intro sched
  induction sched with
  | nil =>
    intro s s' hs h
    simp only [run, Option.some.injEq] at h
    exact h ▸ hs
  | cons a sched ih =>
    intro s s' hs h
    simp only [run] at h
    cases hst : step prog a s with
    | none => rw [hst] at h; simp at h
    | some s1 =>
      rw [hst] at h
      exact ih s1 s' (hstep a s s1 hs hst) h

theorem slotInv_dispatch (prog : Task → List Op) (n : Int) (s s' : State)
    (hs : SlotInv n s) (h : dispatch prog s = some s') : SlotInv n s' := by
  obtain ⟨hm, hle, hn, hb⟩ := hs
  unfold dispatch at h
  split at h
  · -- start
    rename_i hpc
    simp only [Option.some.injEq] at h
    subst h
    simp_all [SlotInv, State.holders, State.semCount, PC.slotTaken, PC.beforeMake]
  · rename_i tc hpc
    split at h <;>
    · simp only [Option.some.injEq] at h
      subst h
      simp_all [SlotInv, State.holders, State.semCount, PC.slotTaken, PC.beforeMake]
  · -- makeSem
    rename_i hpc
    have hsem : s.sem = none := hb (by rw [hpc]; rfl)
    split at h
    · simp only [Option.some.injEq] at h
      subst h
      simp_all [SlotInv, State.holders, State.semCount, PC.slotTaken, PC.beforeMake]
    · simp only [Option.some.injEq] at h
      subst h
      simp_all [SlotInv, State.holders, State.semCount, PC.slotTaken, PC.beforeMake]
  · rename_i hpc
    split at h <;>
    · simp only [Option.some.injEq] at h
      subst h
      simp_all [SlotInv, State.holders, State.semCount, PC.slotTaken, PC.beforeMake]
  · -- dequeue
    rename_i hpc
    simp only [] at h
    split at h <;>
    · simp only [Option.some.injEq] at h
      subst h
      simp_all [SlotInv, State.holders, State.semCount, PC.slotTaken, PC.beforeMake]
  · rename_i t hpc
    simp only [Option.some.injEq] at h
    subst h
    simp_all [SlotInv, State.holders, State.semCount, PC.slotTaken, PC.beforeMake]
  · -- semSend
    rename_i t hpc
    split at h
    · rename_i k hk
      split at h
      · rename_i hlt
        simp only [Option.some.injEq] at h
        subst h
        simp only [SlotInv, State.holders, State.semCount, PC.slotTaken, PC.beforeMake, hk, hpc,
          Option.getD_some] at *
        refine ⟨hm, by omega, by omega, by simp⟩
      · simp at h
    · simp at h
  · -- spawn
    rename_i t hpc
    simp only [Option.some.injEq] at h
    subst h
    simp only [SlotInv, State.holders, State.semCount, PC.slotTaken, PC.beforeMake, hpc,
      List.countP_append, List.countP_cons, List.countP_nil, Phase.holdsSlot] at *
    refine ⟨hm, by simpa using hle, hn, by simp⟩
  · rename_i hpc
    split at h
    · simp only [Option.some.injEq] at h
      subst h
      simp_all [SlotInv, State.holders, State.semCount, PC.slotTaken, PC.beforeMake]
    · simp at h
  · simp at h
  · simp at h

theorem holders_set (l : List Worker) (i : Nat) (w : Worker) (ph : Phase)
    (hw : l[i]? = some w) :
    (l.set i ⟨w.task, ph⟩).countP (fun w => w.phase.holdsSlot)
        + (if w.phase.holdsSlot then 1 else 0)
      = l.countP (fun w => w.phase.holdsSlot) + (if ph.holdsSlot then 1 else 0) :=
  countP_set_add (fun w => w.phase.holdsSlot) l i w ⟨w.task, ph⟩ hw

theorem slotInv_worker (n : Int) (i : Nat) (s s' : State)
    (hs : SlotInv n s) (h : workerStep i s = some s') : SlotInv n s' := by
  obtain ⟨hm, hle, hn, hb⟩ := hs
  have eb : ∀ ops, (Phase.body ops).holdsSlot = true := fun _ => rfl
  have er : Phase.release.holdsSlot = true := rfl
  have ed : Phase.done.holdsSlot = false := rfl
  have ee : Phase.exited.holdsSlot = false := rfl
  unfold workerStep at h
  split at h
  · simp at h
  · rename_i w hw
    split at h
    · -- a queue call of the body
      rename_i op ops hph
      simp only [Option.some.injEq] at h
      subst h
      have := holders_set s.workers i w (.body ops) hw
      simp only [hph, eb, if_true] at this
      simp only [SlotInv, State.holders, State.semCount, op_apply_maxWorkers] at *
      exact ⟨hm, by omega, hn, hb⟩
    · -- the body returns
      rename_i hph
      simp only [Option.some.injEq] at h
      subst h
      have := holders_set s.workers i w .release hw
      simp only [hph, eb, er, if_true] at this
      simp only [SlotInv, State.holders, State.semCount] at *
      exact ⟨hm, by omega, hn, hb⟩
    · -- the deferred receive
      rename_i hph
      split at h
      · rename_i k hk
        simp only [Option.some.injEq] at h
        subst h
        have := holders_set s.workers i w .done hw
        simp only [hph, er, ed, if_true] at this
        simp only [SlotInv, State.holders, State.semCount, hk, Option.getD_some] at *
        refine ⟨hm, by simp at this; omega, by omega, ?_⟩
        intro hbm
        simpa using hb hbm
      · simp at h
    · -- the deferred Done
      rename_i hph
      have := holders_set s.workers i w .exited hw
      simp only [hph, ed, ee] at this
      split at h
      · simp only [Option.some.injEq] at h
        subst h
        simp only [SlotInv, State.holders, State.semCount, PC.slotTaken, PC.beforeMake] at *
        exact ⟨hm, by omega, hn, by simp⟩
      · simp only [Option.some.injEq] at h
        subst h
        simp only [SlotInv, State.holders, State.semCount] at *
        exact ⟨hm, by simp at this; omega, hn, hb⟩
    · simp at h

theorem slotInv_step (prog : Task → List Op) (n : Int) (a : Action) (s s' : State)
    (hs : SlotInv n s) (h : step prog a s = some s') : SlotInv n s' := by
  unfold step at h
  split at h
  · simp at h
  · cases a with
    | dispatch => exact slotInv_dispatch prog n s s' hs h
    | worker i => exact slotInv_worker n i s s' hs h
    | caller op =>
      simp only [Option.some.injEq] at h
      subst h
      obtain ⟨hm, hle, hn, hb⟩ := hs
      exact ⟨by simpa [op_apply_maxWorkers] using hm, hle, hn, hb⟩

theorem slotInv_init (wp : WorkPool) (h : 0 ≤ wp.maxWorkers) : SlotInv wp.maxWorkers (init wp) := by
  refine ⟨rfl, ?_, ?_, ?_⟩
  · simp [init, State.holders, State.semCount, PC.slotTaken]
  · simpa [init, State.semCount] using h
  · intro _; rfl

/-! ## The claims on RunAndWait -/

/-- C4: for every limit `N ≥ 1`, every queue, whatever the task bodies and
other goroutines do to the queue, in every state reached during `RunAndWait`
the number of launched tasks that still hold a semaphore slot is at most `N`
(and so is the number of items in the channel). -/
theorem holders_le_limit (prog : Task → List Op) (wp : WorkPool) (hN : 1 ≤ wp.maxWorkers)
    (sched : List Action) (s : State) (h : run prog sched (init wp) = some s) :
    (s.holders : Int) ≤ wp.maxWorkers ∧ (s.semCount : Int) ≤ wp.maxWorkers := by
  have hinv : SlotInv wp.maxWorkers s :=
    run_invariant prog (SlotInv wp.maxWorkers) (slotInv_step prog wp.maxWorkers)
      sched (init wp) s (slotInv_init wp (by omega)) h
  obtain ⟨_, hle, hn, _⟩ := hinv
  constructor <;> omega

theorem holders_le_limit_witness :
    (1 : Int) ≤ (WorkPool.mk [4, 5, 6] 2 0).maxWorkers
      ∧ run (fun _ => []) (List.replicate 16 Action.dispatch) (init ⟨[4, 5, 6], 2, 0⟩)
          = some ⟨⟨[], 2, 3⟩, some 2, .semSend 6, [⟨4, .body []⟩, ⟨5, .body []⟩], [4, 5]⟩
      ∧ ((State.mk ⟨[], 2, 3⟩ (some 2) (.semSend 6) [⟨4, .body []⟩, ⟨5, .body []⟩]
          [4, 5]).holders : Int) ≤ 2 :=
  ⟨by decide, by decide,
    (holders_le_limit (fun _ => []) ⟨[4, 5, 6], 2, 0⟩ (by decide)
      (List.replicate 16 Action.dispatch)
      ⟨⟨[], 2, 3⟩, some 2, .semSend 6, [⟨4, .body []⟩, ⟨5, .body []⟩], [4, 5]⟩ (by decide)).1⟩

/-- C8: on an empty queue, whatever the limit given to `New`, `RunAndWait`
reads a count of zero and returns at once: no task admitted or launched, no
channel made, no wait on the wait group, the queue left empty. -/
theorem runAndWait_empty_returns (prog : Task → List Op) (maxWorkers : Int) (wg : Nat) :
    dispatch prog (init ⟨[], maxWorkers, wg⟩)
        = some ⟨⟨[], maxWorkers, wg⟩, none, .counted 0, [], []⟩
      ∧ run prog [.dispatch, .dispatch] (init ⟨[], maxWorkers, wg⟩)
        = some ⟨⟨[], maxWorkers, wg⟩, none, .returned, [], []⟩ := by
  constructor <;> rfl

/-- C7: the dequeue block of the dispatch loop panics on an empty queue (the
front element is nil and `Remove` dereferences it): here another caller's
`Remove(0)` empties a one-task queue between the loop condition and the
dequeue. -/
theorem dequeue_faults_on_empty :
    dispatch (fun _ => []) ⟨⟨[], 1, 0⟩, some 0, .dequeue, [], []⟩
        = some ⟨⟨[], 1, 0⟩, some 0, .crashed .nilElement, [], []⟩
      ∧ run (fun _ => [])
          [.dispatch, .dispatch, .dispatch, .dispatch, .caller (.remove 0), .dispatch]
          (init ⟨[7], 1, 0⟩)
        = some ⟨⟨[], 1, 0⟩, some 0, .crashed .nilElement, [], []⟩ := by
  constructor <;> decide

set_option linter.unusedTactic false
set_option linter.unreachableTactic false

theorem drainInv_dispatch (prog : Task → List Op) (n : Int) (hn : 1 ≤ n) (q : List Task)
    (hprog : ∀ t ∈ q, prog t = []) (s s' : State)
    (hs : DrainInv n q s) (h : dispatch prog s = some s') :
    DrainInv n q s' ∧ s'.measure < s.measure := by
  obtain ⟨hlim, hord, hlaunch, hidle, hjoin, hslots, hbound, hunmade, hmade, hagree⟩ := hs
  unfold dispatch at h
  split at h
  · -- start
    rename_i hpc
    simp only [Option.some.injEq] at h
    subst h
    refine ⟨⟨?_, ?_, ?_, ?_, ?_, ?_, ?_, ?_, ?_, ?_⟩, ?_⟩
    all_goals simp only [hpc, State.holders, State.pending, State.semCount, State.measure,
      State.pcAgrees, PC.held, PC.wgTaken, PC.slotTaken, PC.beforeMake, PC.rank,
      List.append_nil, Nat.add_zero, List.append_assoc, List.nil_append] at *
    all_goals first | assumption | omega | (solve | simp_all | (simp_all; omega)) | skip
  · -- counted
    rename_i tc hpc
    split at h
    · rename_i htc
      simp only [Option.some.injEq] at h
      subst h
      refine ⟨⟨?_, ?_, ?_, ?_, ?_, ?_, ?_, ?_, ?_, ?_⟩, ?_⟩
      all_goals simp only [hpc, State.holders, State.pending, State.semCount, State.measure,
        State.pcAgrees, PC.held, PC.wgTaken, PC.slotTaken, PC.beforeMake, PC.rank,
        List.append_nil, Nat.add_zero, List.append_assoc, List.nil_append] at *
      all_goals first | assumption | omega | (solve | simp_all | (simp_all; omega)) | skip
    · rename_i htc
      simp only [Option.some.injEq] at h
      subst h
      refine ⟨⟨?_, ?_, ?_, ?_, ?_, ?_, ?_, ?_, ?_, ?_⟩, ?_⟩
      all_goals simp only [hpc, State.holders, State.pending, State.semCount, State.measure,
        State.pcAgrees, PC.held, PC.wgTaken, PC.slotTaken, PC.beforeMake, PC.rank,
        List.append_nil, Nat.add_zero, List.append_assoc, List.nil_append] at *
      all_goals first | assumption | omega | (solve | simp_all | (simp_all; omega)) | skip
  · -- makeSem
    rename_i hpc
    split at h
    · rename_i hneg
      rw [hlim] at hneg
      omega
    · rename_i hneg
      simp only [Option.some.injEq] at h
      subst h
      refine ⟨⟨?_, ?_, ?_, ?_, ?_, ?_, ?_, ?_, ?_, ?_⟩, ?_⟩
      all_goals simp only [hpc, State.holders, State.pending, State.semCount, State.measure,
        State.pcAgrees, PC.held, PC.wgTaken, PC.slotTaken, PC.beforeMake, PC.rank,
        List.append_nil, Nat.add_zero, List.append_assoc, List.nil_append] at *
      all_goals first | assumption | omega | (solve | simp_all | (simp_all; omega)) | skip
  · -- loopCheck
    rename_i hpc
    split at h
    · rename_i hlen
      simp only [Option.some.injEq] at h
      subst h
      refine ⟨⟨?_, ?_, ?_, ?_, ?_, ?_, ?_, ?_, ?_, ?_⟩, ?_⟩
      all_goals simp only [hpc, State.holders, State.pending, State.semCount, State.measure,
        State.pcAgrees, PC.held, PC.wgTaken, PC.slotTaken, PC.beforeMake, PC.rank,
        List.append_nil, Nat.add_zero, List.append_assoc, List.nil_append] at *
      all_goals first | assumption | omega | (solve | simp_all | (simp_all; omega)) | skip
      · intro hnil
        simp [hnil] at hlen
    · rename_i hlen
      simp only [Option.some.injEq] at h
      subst h
      refine ⟨⟨?_, ?_, ?_, ?_, ?_, ?_, ?_, ?_, ?_, ?_⟩, ?_⟩
      all_goals simp only [hpc, State.holders, State.pending, State.semCount, State.measure,
        State.pcAgrees, PC.held, PC.wgTaken, PC.slotTaken, PC.beforeMake, PC.rank,
        List.append_nil, Nat.add_zero, List.append_assoc, List.nil_append] at *
      all_goals first | assumption | omega | (solve | simp_all | (simp_all; omega)) | skip
  · -- dequeue
    rename_i hpc
    simp only [] at h
    split at h
    · rename_i hq
      simp only [Option.some.injEq] at h
      subst h
      refine ⟨⟨?_, ?_, ?_, ?_, ?_, ?_, ?_, ?_, ?_, ?_⟩, ?_⟩
      all_goals simp only [hpc, State.holders, State.pending, State.semCount, State.measure,
        State.pcAgrees, PC.held, PC.wgTaken, PC.slotTaken, PC.beforeMake, PC.rank,
        List.append_nil, Nat.add_zero, List.append_assoc, List.nil_append] at *
      all_goals first | assumption | omega | (solve | simp_all | (simp_all; omega)) | skip
    · rename_i task rest hq
      simp only [Option.some.injEq] at h
      subst h
      refine ⟨⟨?_, ?_, ?_, ?_, ?_, ?_, ?_, ?_, ?_, ?_⟩, ?_⟩
      all_goals simp only [hpc, State.holders, State.pending, State.semCount, State.measure,
        State.pcAgrees, PC.held, PC.wgTaken, PC.slotTaken, PC.beforeMake, PC.rank,
        List.append_nil, Nat.add_zero, List.append_assoc, List.nil_append, Cursor.remove, List.tail_cons] at *
      all_goals first | assumption | omega | (solve | simp_all | (simp_all; omega)) | skip
  · -- wgAdd
    rename_i t hpc
    simp only [Option.some.injEq] at h
    subst h
    refine ⟨⟨?_, ?_, ?_, ?_, ?_, ?_, ?_, ?_, ?_, ?_⟩, ?_⟩
    all_goals simp only [hpc, State.holders, State.pending, State.semCount, State.measure,
      State.pcAgrees, PC.held, PC.wgTaken, PC.slotTaken, PC.beforeMake, PC.rank,
      List.append_nil, Nat.add_zero, List.append_assoc, List.nil_append] at *
    all_goals first | assumption | omega | (solve | simp_all | (simp_all; omega)) | skip
  · -- semSend
    rename_i t hpc
    split at h
    · rename_i k hk
      split at h
      · rename_i hlt
        simp only [Option.some.injEq] at h
        subst h
        refine ⟨⟨?_, ?_, ?_, ?_, ?_, ?_, ?_, ?_, ?_, ?_⟩, ?_⟩
        all_goals simp only [hpc, State.holders, State.pending, State.semCount, State.measure,
          State.pcAgrees, PC.held, PC.wgTaken, PC.slotTaken, PC.beforeMake, PC.rank,
          List.append_nil, Nat.add_zero, List.append_assoc, List.nil_append, hk, Option.getD_some] at *
        all_goals first | assumption | omega | (solve | simp_all | (simp_all; omega)) | skip
      · simp at h
    · simp at h
  · -- spawn
    rename_i t hpc
    have ht : prog t = [] := by
      apply hprog
      rw [← hord, hpc]
      simp [PC.held]
    simp only [Option.some.injEq] at h
    subst h
    refine ⟨⟨?_, ?_, ?_, ?_, ?_, ?_, ?_, ?_, ?_, ?_⟩, ?_⟩
    all_goals simp only [hpc, State.holders, State.pending, State.semCount, State.measure,
      State.pcAgrees, PC.held, PC.wgTaken, PC.slotTaken, PC.beforeMake, PC.rank,
      List.append_nil, Nat.add_zero, List.append_assoc, List.nil_append, ht, List.countP_append, List.countP_cons, List.countP_nil, List.map_append, List.map_cons, List.map_nil, List.sum_append, List.sum_cons, List.sum_nil, Phase.rank, Phase.holdsSlot] at *
    all_goals first | assumption | omega | (solve | simp_all | (simp_all; omega)) | skip
    · intro w hw
      rcases List.mem_append.1 hw with h1 | h1
      · exact hidle w h1
      · simp only [List.mem_singleton] at h1
        subst h1
        intro _
        rfl
  · -- wgWait
    rename_i hpc
    split at h
    · rename_i hwg
      simp only [Option.some.injEq] at h
      subst h
      refine ⟨⟨?_, ?_, ?_, ?_, ?_, ?_, ?_, ?_, ?_, ?_⟩, ?_⟩
      all_goals simp only [hpc, State.holders, State.pending, State.semCount, State.measure,
        State.pcAgrees, PC.held, PC.wgTaken, PC.slotTaken, PC.beforeMake, PC.rank,
        List.append_nil, Nat.add_zero, List.append_assoc, List.nil_append] at *
      all_goals first | assumption | omega | (solve | simp_all | (simp_all; omega)) | skip
    · simp at h
  · simp at h
  · simp at h

theorem pending_set (l : List Worker) (i : Nat) (w : Worker) (ph : Phase)
    (hw : l[i]? = some w) :
    (l.set i ⟨w.task, ph⟩).countP (fun w => decide (w.phase ≠ .exited))
        + (if w.phase ≠ .exited then 1 else 0)
      = l.countP (fun w => decide (w.phase ≠ .exited)) + (if ph ≠ .exited then 1 else 0) := by
  have := countP_set_add (fun w => decide (w.phase ≠ .exited)) l i w ⟨w.task, ph⟩ hw
  simpa using this

theorem rank_set (l : List Worker) (i : Nat) (w : Worker) (ph : Phase)
    (hw : l[i]? = some w) :
    ((l.set i ⟨w.task, ph⟩).map (fun w => w.phase.rank)).sum + w.phase.rank
      = (l.map (fun w => w.phase.rank)).sum + ph.rank :=
  sum_set_add (fun w => w.phase.rank) l i w ⟨w.task, ph⟩ hw

theorem task_set : ∀ (l : List Worker) (i : Nat) (w : Worker) (ph : Phase),
    l[i]? = some w → (l.set i ⟨w.task, ph⟩).map Worker.task = l.map Worker.task := by
  intro l
  induction l with
  | nil => intro i w ph h; simp at h
  | cons x l ih =>
    intro i w ph h
    cases i with
    | zero =>
      simp only [List.getElem?_cons_zero, Option.some.injEq] at h
      subst h
      rfl
    | succ i =>
      simp only [List.getElem?_cons_succ] at h
      simp only [List.set_cons_succ, List.map_cons, ih i w ph h]

theorem mem_of_getElem? (l : List Worker) (i : Nat) (w : Worker) (hw : l[i]? = some w) :
    w ∈ l := by
  rw [List.getElem?_eq_some_iff] at hw
  obtain ⟨hi, rfl⟩ := hw
  exact List.getElem_mem hi

theorem idle_set (l : List Worker) (i : Nat) (t : Task) (ph : Phase)
    (hidle : ∀ w ∈ l, w.phase.rank = 3 → w.phase = .body [])
    (hph : ph.rank = 3 → ph = .body []) :
    ∀ w ∈ l.set i ⟨t, ph⟩, w.phase.rank = 3 → w.phase = .body [] := by
  intro w hw
  rcases List.mem_or_eq_of_mem_set hw with h1 | h1
  · exact hidle w h1
  · subst h1
    exact hph

theorem drainInv_worker (n : Int) (q : List Task) (i : Nat) (s s' : State)
    (hs : DrainInv n q s) (h : workerStep i s = some s') :
    DrainInv n q s' ∧ s'.measure < s.measure := by
  obtain ⟨hlim, hord, hlaunch, hidle, hjoin, hslots, hbound, hunmade, hmade, hagree⟩ := hs
  have eb : ∀ ops, (Phase.body ops).holdsSlot = true := fun _ => rfl
  have er : Phase.release.holdsSlot = true := rfl
  have ed : Phase.done.holdsSlot = false := rfl
  have ee : Phase.exited.holdsSlot = false := rfl
  have rb : ∀ ops, (Phase.body ops).rank = 3 := fun _ => rfl
  have rr : Phase.release.rank = 2 := rfl
  have rd : Phase.done.rank = 1 := rfl
  have re : Phase.exited.rank = 0 := rfl
  unfold workerStep at h
  split at h
  · simp at h
  · rename_i w hw
    have hmem := mem_of_getElem? s.workers i w hw
    have hne : s.workers ≠ [] := List.ne_nil_of_mem hmem
    have hsem : s.pc.beforeMake = false := by
      cases hb : s.pc.beforeMake with
      | false => rfl
      | true => exact absurd (hunmade hb).2 hne
    split at h
    · -- a queue call of the body: there is none
      rename_i op ops hph
      have := hidle w hmem (by rw [hph]; rfl)
      rw [hph] at this
      simp at this
    · -- the body returns
      rename_i hph
      simp only [Option.some.injEq] at h
      subst h
      have h1 := holders_set s.workers i w .release hw
      have h2 := pending_set s.workers i w .release hw
      have h3 := rank_set s.workers i w .release hw
      have h4 := task_set s.workers i w .release hw
      have h5 := idle_set s.workers i w.task .release hidle (by simp [Phase.rank])
      simp only [hph, eb, er, ed, ee, rb, rr, rd, re, if_true, ne_eq, reduceCtorEq, not_false_eq_true,
        not_true_eq_false, if_false, Bool.false_eq_true] at h1 h2 h3
      refine ⟨⟨?_, ?_, ?_, ?_, ?_, ?_, ?_, ?_, ?_, ?_⟩, ?_⟩
      all_goals simp only [State.holders, State.pending, State.semCount, State.measure] at *
      all_goals first | assumption | omega | (solve | simp_all | (simp_all; omega)) | skip
      · simp only [State.pcAgrees, State.pending, ne_eq] at hagree ⊢
        cases hpc : s.pc <;> simp only [hpc] at hagree ⊢ <;>
          first
          | trivial
          | assumption
          | exact ⟨hagree.1, by have := hagree.2; omega⟩
          | (exfalso; have := hagree.2; omega)
    · -- the deferred receive
      rename_i hph
      split at h
      · rename_i k hk
        simp only [Option.some.injEq] at h
        subst h
        have h1 := holders_set s.workers i w .done hw
        have h2 := pending_set s.workers i w .done hw
        have h3 := rank_set s.workers i w .done hw
        have h4 := task_set s.workers i w .done hw
        have h5 := idle_set s.workers i w.task .done hidle (by simp [Phase.rank])
        simp only [hph, eb, er, ed, ee, rb, rr, rd, re, if_true, ne_eq, reduceCtorEq, not_false_eq_true,
          not_true_eq_false, if_false, Bool.false_eq_true] at h1 h2 h3
        refine ⟨⟨?_, ?_, ?_, ?_, ?_, ?_, ?_, ?_, ?_, ?_⟩, ?_⟩
        all_goals simp only [State.holders, State.pending, State.semCount, State.measure, hk, Option.getD_some] at *
        all_goals first | assumption | omega | (solve | simp_all | (simp_all; omega)) | skip
        · simp only [State.pcAgrees, State.pending, ne_eq] at hagree ⊢
          cases hpc : s.pc <;> simp only [hpc] at hagree ⊢ <;>
            first
            | trivial
            | assumption
            | exact ⟨hagree.1, by have := hagree.2; omega⟩
            | (exfalso; have := hagree.2; omega)
      · simp at h
    · -- the deferred Done
      rename_i hph
      split at h
      · rename_i hwg
        simp only [Option.some.injEq] at h
        subst h
        have h1 := holders_set s.workers i w .exited hw
        have h2 := pending_set s.workers i w .exited hw
        have h3 := rank_set s.workers i w .exited hw
        have h4 := task_set s.workers i w .exited hw
        have h5 := idle_set s.workers i w.task .exited hidle (by simp [Phase.rank])
        simp only [hph, eb, er, ed, ee, rb, rr, rd, re, if_true, ne_eq, reduceCtorEq, not_false_eq_true,
          not_true_eq_false, if_false, Bool.false_eq_true] at h1 h2 h3
        refine ⟨⟨?_, ?_, ?_, ?_, ?_, ?_, ?_, ?_, ?_, ?_⟩, ?_⟩
        all_goals simp only [State.holders, State.pending, State.semCount, State.measure] at *
        all_goals first | assumption | omega | (solve | simp_all | (simp_all; omega)) | skip
      · rename_i hwg
        simp only [Option.some.injEq] at h
        subst h
        have h1 := holders_set s.workers i w .exited hw
        have h2 := pending_set s.workers i w .exited hw
        have h3 := rank_set s.workers i w .exited hw
        have h4 := task_set s.workers i w .exited hw
        have h5 := idle_set s.workers i w.task .exited hidle (by simp [Phase.rank])
        simp only [hph, eb, er, ed, ee, rb, rr, rd, re, if_true, ne_eq, reduceCtorEq, not_false_eq_true,
          not_true_eq_false, if_false, Bool.false_eq_true] at h1 h2 h3
        refine ⟨⟨?_, ?_, ?_, ?_, ?_, ?_, ?_, ?_, ?_, ?_⟩, ?_⟩
        all_goals simp only [State.holders, State.pending, State.semCount, State.measure] at *
        all_goals first | assumption | omega | (solve | simp_all | (simp_all; omega)) | skip
        · simp only [State.pcAgrees, State.pending, ne_eq] at hagree ⊢
          cases hpc : s.pc <;> simp only [hpc] at hagree ⊢ <;>
            first
            | trivial
            | assumption
            | exact ⟨hagree.1, by have := hagree.2; omega⟩
            | (exfalso; have := hagree.2; omega)
    · simp at h

theorem drainInv_step (prog : Task → List Op) (n : Int) (hn : 1 ≤ n) (q : List Task)
    (hprog : ∀ t ∈ q, prog t = []) (a : Action) (ha : a.internal = true) (s s' : State)
    (hs : DrainInv n q s) (h : step prog a s = some s') :
    DrainInv n q s' ∧ s'.measure < s.measure := by
  unfold step at h
  split at h
  · simp at h
  · cases a with
    | dispatch => exact drainInv_dispatch prog n hn q hprog s s' hs h
    | worker i => exact drainInv_worker n q i s s' hs h
    | caller op => simp [Action.internal] at ha

theorem drainInv_run (prog : Task → List Op) (n : Int) (hn : 1 ≤ n) (q : List Task)
    (hprog : ∀ t ∈ q, prog t = []) :
    ∀ (sched : List Action) (s s' : State), DrainInv n q s →
      sched.all Action.internal = true → run prog sched s = some s' →
      DrainInv n q s' ∧ sched.length + s'.measure ≤ s.measure := by
  intro sched
  induction sched with
  | nil =>
    intro s s' hs _ h
    simp only [run, Option.some.injEq] at h
    subst h
    exact ⟨hs, by simp⟩
  | cons a sched ih =>
    intro s s' hs hint h
    simp only [List.all_cons, Bool.and_eq_true] at hint
    simp only [run] at h
    cases hst : step prog a s with
    | none => rw [hst] at h; simp at h
    | some s1 =>
      rw [hst] at h
      obtain ⟨h1, hm1⟩ := drainInv_step prog n hn q hprog a hint.1 s s1 hs hst
      obtain ⟨h2, hm2⟩ := ih s1 s' h1 hint.2 h
      refine ⟨h2, ?_⟩
      simp only [List.length_cons]
      omega

theorem drainInv_init (n : Int) (hn : 1 ≤ n) (q : List Task) :
    DrainInv n q (init ⟨q, n, 0⟩) := by
  refine ⟨rfl, ?_, rfl, ?_, rfl, rfl, ?_, ?_, ?_, ?_⟩
  · simp [init, PC.held]
  · intro w hw
    simp [init] at hw
  · simp only [init, State.semCount, Option.getD_none]
    omega
  · intro _
    exact ⟨rfl, rfl⟩
  · intro _
    exact Or.inl rfl
  · simp [State.pcAgrees, init]

theorem exists_index_of_countP_pos (p : Worker → Bool) (l : List Worker)
    (h : 0 < l.countP p) : ∃ (i : Nat) (w : Worker), l[i]? = some w ∧ p w = true := by
  obtain ⟨w, hw, hp⟩ := List.countP_pos_iff.1 h
  obtain ⟨i, hi, hget⟩ := List.getElem_of_mem hw
  exact ⟨i, w, by rw [List.getElem?_eq_some_iff]; exact ⟨hi, hget⟩, hp⟩

theorem worker_enabled (prog : Task → List Op) (s : State) (i : Nat) (w : Worker)
    (hw : s.workers[i]? = some w) (hpc : ∀ f, s.pc ≠ .crashed f)
    (hex : w.phase ≠ .exited) (hrel : w.phase = .release → ∃ k, s.sem = some (k + 1)) :
    (step prog (.worker i) s).isSome = true := by
  unfold step
  split
  · rename_i f hf
    exact absurd hf (hpc f)
  · simp only [workerStep, hw]
    cases hph : w.phase with
    | body ops => cases ops <;> simp
    | release =>
      obtain ⟨k, hk⟩ := hrel hph
      simp [hk]
    | done =>
      simp only []
      split <;> simp
    | exited => exact absurd hph hex

theorem drain_progress (prog : Task → List Op) (n : Int) (hn : 1 ≤ n) (q : List Task)
    (s : State) (hs : DrainInv n q s) (hret : s.pc ≠ .returned) :
    ∃ a, a.internal = true ∧ (step prog a s).isSome = true := by
  obtain ⟨hlim, hord, hlaunch, hidle, hjoin, hslots, hbound, hunmade, hmade, hagree⟩ := hs
  have hcr : ∀ f, s.pc ≠ .crashed f := by
    intro f hf
    simp [State.pcAgrees, hf] at hagree
  -- a goroutine that has not finished can always take a step
  have hworker : ∀ (i : Nat) (w : Worker), s.workers[i]? = some w → w.phase ≠ .exited →
      ∃ a, a.internal = true ∧ (step prog a s).isSome = true := by
    intro i w hw hex
    refine ⟨.worker i, rfl, worker_enabled prog s i w hw hcr hex ?_⟩
    intro hph
    have hpos : 0 < s.holders := by
      apply List.countP_pos_iff.2
      exact ⟨w, mem_of_getElem? s.workers i w hw, by rw [hph]; rfl⟩
    have : 0 < s.semCount := by omega
    cases hsem : s.sem with
    | none => simp [State.semCount, hsem] at this
    | some k =>
      cases k with
      | zero => simp [State.semCount, hsem] at this
      | succ k => exact ⟨k, rfl⟩
  have hdisp : (dispatch prog s).isSome = true →
      ∃ a, a.internal = true ∧ (step prog a s).isSome = true := by
    intro h
    refine ⟨.dispatch, rfl, ?_⟩
    unfold step
    split
    · rename_i f hf
      exact absurd hf (hcr f)
    · exact h
  cases hpc : s.pc with
  | start => exact hdisp (by simp [dispatch, hpc])
  | counted k =>
    apply hdisp
    simp only [dispatch, hpc]
    split <;> simp
  | makeSem =>
    apply hdisp
    simp only [dispatch, hpc]
    split <;> simp
  | loopCheck =>
    apply hdisp
    simp only [dispatch, hpc]
    split <;> simp
  | dequeue =>
    apply hdisp
    simp only [dispatch, hpc]
    split <;> simp
  | wgAdd t => exact hdisp (by simp [dispatch, hpc])
  | spawn t => exact hdisp (by simp [dispatch, hpc])
  | semSend t =>
    cases hsem : s.sem with
    | none =>
      rcases hmade hsem with h | h
      · simp [hpc, PC.beforeMake] at h
      · simp [hpc] at h
    | some k =>
      by_cases hk : (k : Int) < s.wp.maxWorkers
      · exact hdisp (by simp [dispatch, hpc, hsem, hk])
      · have hpos : 0 < s.holders := by
          simp only [State.semCount, hsem, Option.getD_some, hpc, PC.slotTaken] at hslots
          omega
        obtain ⟨i, w, hw, hp⟩ := exists_index_of_countP_pos _ s.workers hpos
        apply hworker i w hw
        intro hph
        rw [hph] at hp
        simp [Phase.holdsSlot] at hp
  | wgWait =>
    by_cases hwg : s.wp.wg = 0
    · exact hdisp (by simp [dispatch, hpc, hwg])
    · have hpos : 0 < s.pending := by
        simp only [hpc, PC.wgTaken] at hjoin
        omega
      obtain ⟨i, w, hw, hp⟩ := exists_index_of_countP_pos _ s.workers hpos
      apply hworker i w hw
      simpa using hp
  | returned => exact absurd hpc hret
  | crashed f => exact absurd hpc (hcr f)

theorem drain_completes (prog : Task → List Op) (n : Int) (hn : 1 ≤ n) (q : List Task)
    (hprog : ∀ t ∈ q, prog t = []) :
    ∀ (m : Nat) (s : State), DrainInv n q s → s.measure ≤ m →
      ∃ sched s', sched.all Action.internal = true ∧ run prog sched s = some s'
        ∧ s'.pc = .returned := by
  intro m
  induction m with
  | zero =>
    intro s hs hm
    by_cases hret : s.pc = .returned
    · exact ⟨[], s, rfl, rfl, hret⟩
    · obtain ⟨a, ha, hsome⟩ := drain_progress prog n hn q s hs hret
      obtain ⟨s1, hs1⟩ := Option.isSome_iff_exists.1 hsome
      have := (drainInv_step prog n hn q hprog a ha s s1 hs hs1).2
      omega
  | succ m ih =>
    intro s hs hm
    by_cases hret : s.pc = .returned
    · exact ⟨[], s, rfl, rfl, hret⟩
    · obtain ⟨a, ha, hsome⟩ := drain_progress prog n hn q s hs hret
      obtain ⟨s1, hs1⟩ := Option.isSome_iff_exists.1 hsome
      obtain ⟨hinv, hlt⟩ := drainInv_step prog n hn q hprog a ha s s1 hs hs1
      obtain ⟨sched, s2, hint, hrun, hfin⟩ := ih s1 hinv (by omega)
      refine ⟨a :: sched, s2, ?_, ?_, hfin⟩
      · simp [ha, hint]
      · simp [run, hs1, hrun]

theorem completions_of_pending_zero (l : List Worker)
    (h : l.countP (fun w => decide (w.phase ≠ .exited)) = 0) :
    l.countP (fun w => decide (w.phase = .exited)) = l.length := by
  have := List.length_eq_countP_add_countP (fun w : Worker => decide (w.phase = .exited)) l
  have e : l.countP (fun w => decide ¬(decide (w.phase = .exited)) = true)
      = l.countP (fun w => decide (w.phase ≠ .exited)) := by
    congr 1
    funext w
    simp
  omega

/-- C6: for `N ≥ 1` and a queue `q` of tasks that do not touch the pool, no
other goroutine calling the pool, every run of `RunAndWait` launches a prefix
of `q` in queue order; when it has returned it has launched exactly `q`, each
task once and front first, every launched goroutine has finished and the
queue is empty; every run has at most `8 * length q + 5` steps, always has a
next step until it has returned, and can be completed to a return. -/
theorem runAndWait_drains_in_order (prog : Task → List Op) (n : Int) (hn : 1 ≤ n)
    (q : List Task) (hprog : ∀ t ∈ q, prog t = []) (sched : List Action)
    (hint : sched.all Action.internal = true) (s : State)
    (h : run prog sched (init ⟨q, n, 0⟩) = some s) :
    (∃ rest, s.admitted ++ rest = q)
      ∧ (s.pc = .returned →
          s.admitted = (WorkPool.mk q n 0).List ∧ s.workers.map Worker.task = q
            ∧ s.completions = q.length ∧ s.wp.tasks = [])
      ∧ sched.length + s.measure ≤ 8 * q.length + 5
      ∧ (s.pc ≠ .returned → ∃ a, a.internal = true ∧ (step prog a s).isSome = true)
      ∧ (∃ sched' s', sched'.all Action.internal = true ∧ run prog sched' s = some s'
          ∧ s'.pc = .returned) := by
  obtain ⟨hinv, hm⟩ :=
    drainInv_run prog n hn q hprog sched (init ⟨q, n, 0⟩) s (drainInv_init n hn q) hint h
  refine ⟨⟨s.pc.held ++ s.wp.tasks, ?_⟩, ?_, ?_, ?_, ?_⟩
  · rw [← List.append_assoc]
    exact hinv.order
  · intro hret
    have hag := hinv.agrees
    have hord := hinv.order
    simp only [State.pcAgrees, hret] at hag
    simp only [hret, PC.held, hag.1, List.append_nil] at hord
    refine ⟨by rw [list_eq]; exact hord, ?_, ?_, hag.1⟩
    · rw [hinv.launched, hord]
    · have := completions_of_pending_zero s.workers hag.2
      rw [State.completions, this, ← hord, ← hinv.launched, List.length_map]
  · simpa [State.measure, init, PC.rank] using hm
  · exact drain_progress prog n hn q s hinv
  · exact drain_completes prog n hn q hprog s.measure s hinv (le_refl _)

theorem runAndWait_drains_in_order_witness :
    run (fun _ => []) drainSchedule (init ⟨[10, 11, 12, 13, 14], 2, 0⟩)
        = some ⟨⟨[], 2, 0⟩, some 0, .returned,
            [⟨10, .exited⟩, ⟨11, .exited⟩, ⟨12, .exited⟩, ⟨13, .exited⟩, ⟨14, .exited⟩],
            [10, 11, 12, 13, 14]⟩
      ∧ drainSchedule.length + 0 ≤ 8 * 5 + 5 :=
  ⟨by decide,
    (runAndWait_drains_in_order (fun _ => []) 2 (by decide) [10, 11, 12, 13, 14]
      (fun _ _ => rfl) drainSchedule (by decide)
      ⟨⟨[], 2, 0⟩, some 0, .returned,
        [⟨10, .exited⟩, ⟨11, .exited⟩, ⟨12, .exited⟩, ⟨13, .exited⟩, ⟨14, .exited⟩],
        [10, 11, 12, 13, 14]⟩ (by decide)).2.2.1⟩

theorem run_internal_invariant (prog : Task → List Op) (P : State → Prop)
    (hstep : ∀ a s s', a.internal = true → P s → step prog a s = some s' → P s') :
    ∀ (sched : List Action) (s s' : State), sched.all Action.internal = true → P s →
      run prog sched s = some s' → P s' := by
  intro sched
  induction sched with
  | nil =>
    intro s s' _ hs h
    simp only [run, Option.some.injEq] at h
    exact h ▸ hs
  | cons a sched ih =>
    intro s s' hint hs h
    simp only [List.all_cons, Bool.and_eq_true] at hint
    simp only [run] at h
    cases hst : step prog a s with
    | none => rw [hst] at h; simp at h
    | some s1 =>
      rw [hst] at h
      exact ih s1 s' hint.2 (hstep a s s1 hint.1 hs hst) h

theorem workerStep_none_of_length_le (i : Nat) (s : State) (h : s.workers.length ≤ i) :
    workerStep i s = none := by
  unfold workerStep
  rw [List.getElem?_eq_none h]

theorem reentrant_closed : reentrantClosed = true := by decide

theorem reentrant_small :
    reentrantStates.all (fun s => decide (s.workers.length ≤ 2)) = true := by decide

theorem reentrantStates_outcome : reentrantStates.all reentrantOutcome = true := by decide

theorem reentrant_live : reentrantLive = true := by decide

theorem reentrant_step_mem (a : Action) (s s' : State) (ha : a.internal = true)
    (hs : s ∈ reentrantStates) (h : step reentrantProg a s = some s') :
    s' ∈ reentrantStates := by
  have hc := reentrant_closed
  simp only [reentrantClosed, List.all_eq_true] at hc
  have hsmall := reentrant_small
  simp only [List.all_eq_true, decide_eq_true_eq] at hsmall
  have hmem : ∀ b : Action, b ∈ [Action.dispatch, Action.worker 0, Action.worker 1] →
      step reentrantProg b s = some s' → s' ∈ reentrantStates := by
    intro b hb hstep
    have := hc s hs b hb
    rw [hstep] at this
    simpa using this
  cases a with
  | dispatch => exact hmem _ (by simp) h
  | caller op => simp [Action.internal] at ha
  | worker i =>
    by_cases h0 : i = 0
    · subst h0
      exact hmem _ (by simp) h
    · by_cases h1 : i = 1
      · subst h1
        exact hmem _ (by simp) h
      · have hlen : s.workers.length ≤ i := by
          have := hsmall s hs
          omega
        unfold step at h
        split at h
        · simp at h
        · simp only [workerStep_none_of_length_le i s hlen] at h
          simp at h

/-- C5: in the re-entrant example (limit one, task `0` queued, task `0`
inserts task `1`) the loop can read an empty queue before the insertion;
`RunAndWait` then returns after one completion with task `1` still queued,
so it is not true that under every interleaving two completions have occurred
and the queue is empty at the return. -/
theorem reentrant_insert_can_be_missed :
    run reentrantProg earlyExitSchedule (init ⟨[0], 1, 0⟩)
        = some ⟨⟨[1], 1, 0⟩, some 0, .returned, [⟨0, .exited⟩], [0]⟩
      ∧ ¬ (∀ (sched : List Action) (s : State), sched.all Action.internal = true →
          run reentrantProg sched (init ⟨[0], 1, 0⟩) = some s → s.pc = .returned →
          s.completions = 2 ∧ s.wp.tasks = []) := by
  refine ⟨by decide, ?_⟩
  intro h
  have := h earlyExitSchedule ⟨⟨[1], 1, 0⟩, some 0, .returned, [⟨0, .exited⟩], [0]⟩
    (by decide) (by decide) rfl
  revert this
  decide

/-- The two outcomes of the re-entrant example: under every interleaving of
the goroutines with the dispatch loop, when `RunAndWait` has returned every
launched goroutine has finished and either both tasks ran and the queue is
empty, or only task `0` ran and task `1` is still queued; and until it has
returned some step is enabled. -/
theorem reentrant_outcomes (sched : List Action) (hint : sched.all Action.internal = true)
    (s : State) (h : run reentrantProg sched (init ⟨[0], 1, 0⟩) = some s) :
    (s.pc = .returned →
        s.pending = 0 ∧ s.wp.wg = 0
          ∧ ((s.completions = 2 ∧ s.wp.tasks = [] ∧ s.admitted = [0, 1])
            ∨ (s.completions = 1 ∧ s.wp.tasks = [1] ∧ s.admitted = [0])))
      ∧ (s.pc ≠ .returned → ∃ a, a.internal = true ∧ (step reentrantProg a s).isSome = true) := by
  have hmem : s ∈ reentrantStates :=
    run_internal_invariant reentrantProg (fun s => s ∈ reentrantStates)
      (fun a s s' ha hs hst => reentrant_step_mem a s s' ha hs hst)
      sched (init ⟨[0], 1, 0⟩) s hint (by decide) h
  constructor
  · intro hret
    have := reentrantStates_outcome
    simp only [List.all_eq_true] at this
    have := this s hmem
    simp only [reentrantOutcome, hret, bne_self_eq_false, Bool.false_or, Bool.and_eq_true,
      Bool.or_eq_true, beq_iff_eq] at this
    refine ⟨this.1.1, this.1.2, ?_⟩
    rcases this.2 with h2 | h1
    · exact Or.inl ⟨h2.1.1, h2.1.2, h2.2⟩
    · exact Or.inr ⟨h1.1.1, h1.1.2, h1.2⟩
  · intro hret
    have := reentrant_live
    simp only [reentrantLive, List.all_eq_true] at this
    have := this s hmem
    simp only [Bool.or_eq_true, beq_iff_eq, hret, false_or, List.any_eq_true] at this
    obtain ⟨a, ha, hsome⟩ := this
    refine ⟨a, ?_, hsome⟩
    simp only [List.mem_cons, List.mem_singleton, List.mem_nil_iff, or_false] at ha
    rcases ha with rfl | rfl | rfl <;> rfl

theorem reentrant_outcomes_witness :
    run reentrantProg pickUpSchedule (init ⟨[0], 1, 0⟩)
        = some ⟨⟨[], 1, 0⟩, some 0, .returned, [⟨0, .exited⟩, ⟨1, .exited⟩], [0, 1]⟩
      ∧ (State.mk ⟨[], 1, 0⟩ (some 0) .returned [⟨0, .exited⟩, ⟨1, .exited⟩] [0, 1]).pending = 0 :=
  ⟨by decide,
    ((reentrant_outcomes pickUpSchedule (by decide)
      ⟨⟨[], 1, 0⟩, some 0, .returned, [⟨0, .exited⟩, ⟨1, .exited⟩], [0, 1]⟩
      (by decide)).1 rfl).1⟩

end Workpool

namespace Csv

/-! ## The CSV claim -/

theorem fillRecord_eq (headers : List String) :
    ∀ (row : List String) (i : Nat) (m : Record), i + row.length ≤ headers.length →
      fillRecord headers i row m
        = some ((List.range row.length).foldl
            (fun m j => m.set (headers.getD (i + j) "") (row.getD j "")) m) := by
  intro row
  induction row with
  | nil => intro i m _; rfl
  | cons value row ih =>
    intro i m hlen
    simp only [List.length_cons] at hlen
    have hi : i < headers.length := by omega
    have hget : headers[i]? = some (headers.getD i "") := by
      rw [List.getD_eq_getElem?_getD, List.getElem?_eq_getElem hi]
      rfl
    simp only [fillRecord, hget]
    rw [ih (i + 1) _ (by omega)]
    simp only [List.length_cons, List.range_succ_eq_map, List.foldl_cons, List.foldl_map,
      Nat.add_zero, List.getD_cons_zero, List.getD_cons_succ]
    have e : ∀ j : Nat, i + 1 + j = i + j.succ := fun j => by omega
    simp only [e]

theorem fillRecord_matching (headers row : List String) (h : row.length = headers.length) :
    fillRecord headers 0 row Record.empty = some (specRecord headers row) := by
  rw [fillRecord_eq headers row 0 Record.empty (by omega)]
  simp only [specRecord, h, Nat.zero_add]

theorem convertRows_eq (headers : List String) :
    ∀ (rows : List (List String)) (jsonData : List Record),
      convertRows headers rows jsonData
        = some (jsonData
            ++ (rows.filter (fun r => decide (r.length = headers.length))).map
                (specRecord headers)) := by
  intro rows
  induction rows with
  | nil => intro jsonData; simp [convertRows]
  | cons row rows ih =>
    intro jsonData
    by_cases h : row.length = headers.length
    · simp only [convertRows, h, ne_eq, not_true_eq_false, if_false, fillRecord_matching headers row h,
        ih, List.filter_cons, decide_True, if_true, List.map_cons, List.append_assoc,
        List.singleton_append]
    · simp only [convertRows, h, ne_eq, not_false_eq_true, if_true, ih, List.filter_cons,
        decide_False]
      simp

theorem readAll_pos (n : Nat) (hn : 0 < n) :
    ∀ (file records : List (List String)),
      readAll n file records
        = if file.all (fun r => decide (r.length = n)) = true then some (records ++ file)
          else none := by
  intro file
  induction file with
  | nil => intro records; simp [readAll]
  | cons record file ih =>
    intro records
    simp only [readAll, gt_iff_lt, hn, if_true, ne_eq, List.all_cons, Bool.and_eq_true,
      decide_eq_true_eq]
    by_cases hr : record.length = n
    · simp only [hr, not_true_eq_false, if_false, ih, true_and, List.append_assoc,
        List.singleton_append]
    · simp [hr]

theorem processCSVFile_eq (h : List String) (rs : List (List String)) (hh : h ≠ []) :
    processCSVFile (h :: rs)
      = if rs.all (fun r => decide (r.length = h.length)) = true then
          .ok (rs.map (specRecord h))
        else .readError := by
  have hpos : 0 < h.length := List.length_pos.2 hh
  have hread : readAll 0 (h :: rs) [] = readAll h.length rs [h] := by
    simp [readAll]
  unfold processCSVFile
  rw [hread, readAll_pos h.length hpos]
  by_cases hall : rs.all (fun r => decide (r.length = h.length)) = true
  · have hf : rs.filter (fun r => decide (r.length = h.length)) = rs := by
      rw [List.filter_eq_self]
      intro r hr
      exact List.all_eq_true.1 hall r hr
    simp only [hall, if_true, List.singleton_append, convertRows_eq, List.nil_append, hf]
  · simp [hall]

/-- C9: on a file with the header `a,b` and the data rows `1,2` and `3`, the
specification asks for one record, that of the row `1,2`; `reader.ReadAll()`
fails on the row `3`, so both programs return the read error before the row
loop and produce no record. -/
theorem ragged_file_yields_no_record :
    (specRecords ["a", "b"] [["1", "2"], ["3"]]).length = 1
      ∧ processCSVFile [["a", "b"], ["1", "2"], ["3"]] = .readError
      ∧ processCSVFileConcurrently [["a", "b"], ["1", "2"], ["3"]] = .readError := by
  refine ⟨by decide, rfl, rfl⟩

end Csv
